import Mathlib

/-!
Verification of the DNANDU repository (DNANDU.py): congruence derivative
matrices, normalized distribution uniformity (NDU), perfect levels, period
searches, consensus repeat extraction and sliding-window NDU spectra.

The Python code is shallowly embedded: DNA sequences are lists of characters,
the congruence matrix is the total function built by the counting loop of
getCongruenceMatrix, floating point numbers are modelled as exact rationals,
and operations that can raise a Python exception (ZeroDivisionError on an
empty sequence or a zero period, IndexError on out-of-range list access,
ValueError of max on an empty list) return Option, with none for the raise.
-/

namespace DNANDU

/-- Row index of a nucleotide in the congruence matrix, following the
if/elif chain of getCongruenceMatrix: row 0 for G, row 1 for C, row 2 for A,
and the catch-all row 3 for every other character (including T). -/
def baseRow (ch : Char) : ℕ :=
  if ch = 'G' then 0 else if ch = 'C' then 1 else if ch = 'A' then 2 else 3

/-- Row classification of position i of a sequence (the classification the
loop body of getCongruenceMatrix applies to seq[i]). -/
def rowAt (seq : List Char) (i : ℕ) : ℕ :=
  baseRow (seq.getD i ' ')

/-- One loop iteration of getCongruenceMatrix: increment cell (r, c) of the
matrix CM, leaving every other cell unchanged (CM[r,c] = CM[r,c]+1). -/
def bump (CM : ℕ → ℕ → ℕ) (r c : ℕ) : ℕ → ℕ → ℕ :=
  fun r' c' => if r' = r ∧ c' = c then CM r' c' + 1 else CM r' c'

/-- Embedding of getCongruenceMatrix(seq, p): starting from the zero matrix
(np.zeros([4, p])), for each index i in range(len(seq)) increment the cell in
row baseRow(seq[i]) and column i % p.  The matrix is represented as a total
function on row and column indices; cells outside the 4 x p block stay 0. -/
def getCongruenceMatrix (seq : List Char) (p : ℕ) : ℕ → ℕ → ℕ :=
  (List.range seq.length).foldl (fun CM i => bump CM (rowAt seq i) (i % p)) (fun _ _ => 0)

/-- Maximum of a column over the four rows of a congruence matrix: embedding of
np.amax(CM, axis=0) at one column. -/
def colMax4 (CM : ℕ → ℕ → ℕ) (c : ℕ) : ℕ :=
  max (CM 0 c) (max (CM 1 c) (max (CM 2 c) (CM 3 c)))

/-- Embedding of getPerfectLevelSeq(seq, p): the sum over the p columns of the
column maxima of the congruence matrix, divided by the sequence length. -/
def getPerfectLevelSeq (seq : List Char) (p : ℕ) : ℚ :=
  let lenS := seq.length
  let CM := getCongruenceMatrix seq p
  let sumMaxCols := Finset.sum (Finset.range p) (fun c => colMax4 CM c)
  (sumMaxCols : ℚ) / (lenS : ℚ)

/-- Embedding of getNDUSeq(seq, p): the double loop over the 4 rows and p
columns accumulating the squared deviation of each cell from the expected
count n/(4p), finally divided by n. -/
def getNDUSeq (seq : List Char) (p : ℕ) : ℚ :=
  let n := seq.length
  let f := getCongruenceMatrix seq p
  let avg : ℚ := (n : ℚ) / (4 * (p : ℚ))
  let DU : ℚ :=
    Finset.sum (Finset.range 4) (fun i =>
      Finset.sum (Finset.range p) (fun j => ((f i j : ℚ) - avg) ^ 2))
  DU / (n : ℚ)

/-- Embedding of getNDUSeqEquation(seq, p): the closed form of the NDU, the
sum of the squared cells minus n*n/(4p), divided by n. -/
def getNDUSeqEquation (seq : List Char) (p : ℕ) : ℚ :=
  let n := seq.length
  let f := getCongruenceMatrix seq p
  let sumV : ℚ :=
    Finset.sum (Finset.range 4) (fun i =>
      Finset.sum (Finset.range p) (fun j => (f i j : ℚ) ^ 2))
  let DU : ℚ := sumV - ((n : ℚ) * (n : ℚ)) / (4 * (p : ℚ))
  DU / (n : ℚ)

/-- Python range(a, b) as a list of naturals (empty when b <= a). -/
def pyRange (a b : ℕ) : List ℕ :=
  List.range' a (b - a)

/-- Python max on a list of rationals: none on the empty list (Python raises
ValueError there), otherwise the greatest element. -/
def pymax (l : List ℚ) : Option ℚ :=
  match l with
  | [] => none
  | x :: xs => some (xs.foldl max x)

/-- Python list.index for rationals: the first index holding the value.
Like List.findIdx it returns the length when the value is absent; every use
below looks up a value known to be in the list. -/
def pyIndex (l : List ℚ) (a : ℚ) : ℕ :=
  l.findIdx (fun b => decide (b = a))

/-- Embedding of getMaxPRSeq(seq): mp is floor(len/2) capped at 100, and the
loop for p in range(2, mp) appends getPerfectLevelSeq(seq, mp) — the source
calls the scorer with the bound mp, not with the loop variable p, which stays
unused.  none when prs is empty (max([]) raises ValueError). -/
def getMaxPRSeq (seq : List Char) : Option (ℕ × ℚ) := do
  let lenS := seq.length
  let mp := min (lenS / 2) 100
  let prs := (pyRange 2 mp).map (fun _p => getPerfectLevelSeq seq mp)
  let maxpr ← pymax prs
  let idx := pyIndex prs maxpr
  pure (idx + 2, maxpr)

/-- Embedding of getMaxNDUSeq(seq, mp): with no given limit, mp is
floor(len/2) capped at 100; the NDU list is a 0 for periodicity 1 followed by
the NDU of each p in range(2, mp); the result pairs the first index of the
maximal value plus 1 with that maximal value. -/
def getMaxNDUSeq (seq : List Char) (mpOpt : Option ℕ) : ℕ × ℚ :=
  let lenS := seq.length
  let mp := match mpOpt with
    | none => min (lenS / 2) 100
    | some m => m
  let rest := (pyRange 2 mp).map (fun p => getNDUSeq seq p)
  let maxNDU := rest.foldl max 0
  let idx := pyIndex (0 :: rest) maxNDU
  (idx + 1, maxNDU)

/-- Embedding of getNDUAllSeq(seq, mp): a 0 for periodicity 1 followed by the
NDU of each p in range(2, mp), with the same default limit as getMaxNDUSeq. -/
def getNDUAllSeq (seq : List Char) (mpOpt : Option ℕ) : List ℚ :=
  let lenS := seq.length
  let mp := match mpOpt with
    | none => min (lenS / 2) 100
    | some m => m
  0 :: (pyRange 2 mp).map (fun p => getNDUSeq seq p)

/-- Embedding of getNDURangeSeq(seq, p1, p2): the NDU of each p in
range(p1, p2+1). -/
def getNDURangeSeq (seq : List Char) (p1 p2 : ℕ) : List ℚ :=
  (pyRange p1 (p2 + 1)).map (fun p => getNDUSeq seq p)

/-- Embedding of getPRRangeSeq(seq, p1, p2): the perfect level of each period
in range(p1, p2) — the upper bound p2 itself is not scanned. -/
def getPRRangeSeq (seq : List Char) (p1 p2 : ℕ) : List ℚ :=
  (pyRange p1 p2).map (fun period => getPerfectLevelSeq seq period)

/-- Start index of the Python slice l[a:] for a list of length l, with the
negative-index convention (a negative a counts from the end, clamped at 0). -/
def pySliceStart (l : ℕ) (a : ℤ) : ℕ :=
  if a < 0 then (max 0 ((l : ℤ) + a)).toNat else min a.toNat l

/-- Embedding of getLargests(ps, n): sort ps, slice out pt[l-3:l] — the three
largest values, the 3 hardcoded in the source — then for i in range(n) look up
the first index of ps_n[i] in ps.  none when n exceeds the slice length
(ps_n[i] raises IndexError). -/
def getLargests (ps : List ℚ) (n : ℕ) : Option (List ℚ × List ℕ) :=
  let l := ps.length
  let pt := List.insertionSort (fun a b : ℚ => a ≤ b) ps
  let ps_n := pt.drop (pySliceStart l ((l : ℤ) - 3))
  if n ≤ ps_n.length then
    some (ps_n, (List.range n).map (fun i => pyIndex ps (ps_n.getD i 0)))
  else none

/-- Python list indexing l[i] with the negative-index convention: none when
the index is out of range (IndexError). -/
def pyGet {α : Type} (l : List α) (i : ℤ) : Option α :=
  if 0 ≤ i then l.get? i.toNat
  else if 0 ≤ i + (l.length : ℤ) then l.get? (i + (l.length : ℤ)).toNat
  else none

/-- Embedding of getTopMaxPeriods(seq, p1, p2, n): scan the NDUs of periods
p1..p2, take getLargests, shift the indices by p1 and report the list together
with its entry at position n-1. -/
def getTopMaxPeriods (seq : List Char) (p1 p2 n : ℕ) : Option (List ℕ × ℕ) := do
  let psRange := getNDURangeSeq seq p1 p2
  let pr ← getLargests psRange n
  let maxPeriods := pr.2.map (fun x => x + p1)
  let maxPeriod ← pyGet maxPeriods ((n : ℤ) - 1)
  pure (maxPeriods, maxPeriod)

/-- Embedding of getMaxPerfect(seq, p1, p2): the perfect levels of the periods
in range(p1, p2), paired as (first index of the maximum plus p1, maximum).
none when the range is empty (max([]) raises ValueError). -/
def getMaxPerfect (seq : List Char) (p1 p2 : ℕ) : Option (ℕ × ℚ) := do
  let prRange := (pyRange p1 p2).map (fun period => getPerfectLevelSeq seq period)
  let maxPR ← pymax prRange
  let maxPRIdx := pyIndex prRange maxPR
  pure (maxPRIdx + p1, maxPR)

/-- Embedding of getTopMaxPerfects(seq, p1, p2, n): as getTopMaxPeriods but
over the perfect levels of getPRRangeSeq. -/
def getTopMaxPerfects (seq : List Char) (p1 p2 n : ℕ) : Option (List ℕ × ℕ) := do
  let prRange := getPRRangeSeq seq p1 p2
  let pr ← getLargests prRange n
  let maxPeriods := pr.2.map (fun x => x + p1)
  let maxPeriod ← pyGet maxPeriods ((n : ℤ) - 1)
  pure (maxPeriods, maxPeriod)

/-- Embedding of np.argmax(axis=0) on one column of a 4-row matrix: the first
row index attaining the column maximum. -/
def argmax4 (col : ℕ → ℕ) : ℕ :=
  let m := max (col 0) (max (col 1) (max (col 2) (col 3)))
  if col 0 = m then 0 else if col 1 = m then 1 else if col 2 = m then 2 else 3

/-- Embedding of getRepeatSeq(seq, p): for each column of the congruence
matrix take the first row with the maximal count and decode it through the
if/elif chain of the source (0 to G, 1 to C, 2 to A, anything else to T). -/
def getRepeatSeq (seq : List Char) (p : ℕ) : List Char :=
  let CM := getCongruenceMatrix seq p
  (List.range p).map (fun i =>
    let idx := argmax4 (fun r => CM r i)
    if idx = 0 then 'G' else if idx = 1 then 'C' else if idx = 2 then 'A' else 'T')

/-- Python true division on rationals: none when the divisor is zero
(ZeroDivisionError). -/
def pyDiv (a b : ℚ) : Option ℚ :=
  if b = 0 then none else some (a / b)

/-- Exception-aware congruence matrix: the loop body of getCongruenceMatrix
evaluates i % p, which raises ZeroDivisionError in Python when p = 0; the loop
body runs precisely when the sequence is non-empty. -/
def getCongruenceMatrixE (seq : List Char) (p : ℕ) : Option (ℕ → ℕ → ℕ) :=
  if seq.length ≠ 0 ∧ p = 0 then none else some (getCongruenceMatrix seq p)

/-- Exception-aware embedding of getNDUSeq: the matrix build can raise, the
expected count n/(4p) divides by 4p, and the final normalization divides
by n. -/
def getNDUSeqE (seq : List Char) (p : ℕ) : Option ℚ := do
  let n := seq.length
  let f ← getCongruenceMatrixE seq p
  let avg ← pyDiv (n : ℚ) (4 * (p : ℚ))
  let DU : ℚ :=
    Finset.sum (Finset.range 4) (fun i =>
      Finset.sum (Finset.range p) (fun j => ((f i j : ℚ) - avg) ^ 2))
  pyDiv DU (n : ℚ)

/-- Exception-aware embedding of getPerfectLevelSeq: the matrix build can
raise, and the sum of column maxima is divided by the sequence length. -/
def getPerfectLevelSeqE (seq : List Char) (p : ℕ) : Option ℚ := do
  let lenS := seq.length
  let CM ← getCongruenceMatrixE seq p
  let sumMaxCols := Finset.sum (Finset.range p) (fun c => colMax4 CM c)
  pyDiv (sumMaxCols : ℚ) (lenS : ℚ)

/-- Embedding of getNDUWindowSeq(seq, p, W): with default window 5*p, score
every window seq[i : i+W] for i in range(0, len - W + 1); a window whose NDU
computation raises makes the whole call raise. -/
def getNDUWindowSeq (seq : List Char) (p : ℕ) (Wopt : Option ℕ) : Option (List ℚ) :=
  let lenS := seq.length
  let W : ℕ := match Wopt with
    | none => 5 * p
    | some w => w
  let e : ℤ := (lenS : ℤ) - (W : ℤ) + 1
  (List.range e.toNat).mapM (fun i => getNDUSeqE ((seq.drop i).take W) p)

/-- Being the first row index attaining the maximum of a 4-row column: the
property np.argmax(axis=0) guarantees, and the G > C > A > other tie-break of
the consensus builder. -/
def isFirstArgmax4 (col : ℕ → ℕ) (r : ℕ) : Prop :=
  r < 4 ∧ (∀ s, s < 4 → col s ≤ col r) ∧ ∀ s, s < r → col s < col r

/-- The sequence ATCG repeated five times: an exact period-4 repeat of
length 20. -/
def seqATCGx5 : List Char :=
  ['A', 'T', 'C', 'G', 'A', 'T', 'C', 'G', 'A', 'T', 'C', 'G',
   'A', 'T', 'C', 'G', 'A', 'T', 'C', 'G']

/-- A length-8 test sequence with two symbols per base. -/
def seqGGCCAATT : List Char :=
  ['G', 'G', 'C', 'C', 'A', 'A', 'T', 'T']

/-! ### Counting characterization of the congruence matrix -/

/-- The row classifier only produces the four row indices 0..3. -/
lemma rowAt_lt_four (seq : List Char) (i : ℕ) : rowAt seq i < 4 := by
  unfold rowAt baseRow
  split_ifs <;> omega

/-- Unrolling the counting loop: after folding over any index list, a cell
holds its initial value plus the number of list entries classified into it. -/
lemma foldl_bump_apply (seq : List Char) (p : ℕ) (l : List ℕ) (CM0 : ℕ → ℕ → ℕ)
    (r c : ℕ) :
    (l.foldl (fun CM i => bump CM (rowAt seq i) (i % p)) CM0) r c
      = CM0 r c + (l.filter (fun i => decide (rowAt seq i = r ∧ i % p = c))).length := by
  induction l generalizing CM0 with
  | nil => simp
  | cons a t ih =>
    rw [List.foldl_cons, ih, List.filter_cons]
    by_cases h : rowAt seq a = r ∧ a % p = c
    · rw [if_pos (by simpa using h)]
      have h' : r = rowAt seq a ∧ c = a % p := ⟨h.1.symm, h.2.symm⟩
      simp only [bump, if_pos h', List.length_cons]
      omega
    · rw [if_neg (by simpa using h)]
      have h' : ¬(r = rowAt seq a ∧ c = a % p) := fun hc => h ⟨hc.1.symm, hc.2.symm⟩
      simp only [bump, if_neg h']

/-- Filtering a `List.range` and filtering a `Finset.range` count the same
elements. -/
lemma length_filter_range (n : ℕ) (P : ℕ → Prop) [DecidablePred P] :
    ((List.range n).filter (fun i => decide (P i))).length
      = ((Finset.range n).filter P).card := by
  induction n with
  | zero => simp
  | succ m ih =>
    rw [List.range_succ, List.filter_append, List.length_append, ih, Finset.range_succ,
      Finset.filter_insert]
    by_cases h : P m
    · rw [if_pos h, Finset.card_insert_of_not_mem (by simp)]
      simp [h]
    · rw [if_neg h]
      simp [h]

/-- Cell (r, c) of the congruence matrix counts the sequence positions of
residue class c whose symbol is classified into row r. -/
lemma getCongruenceMatrix_apply (seq : List Char) (p r c : ℕ) :
    getCongruenceMatrix seq p r c
      = ((Finset.range seq.length).filter (fun i => rowAt seq i = r ∧ i % p = c)).card := by
  rw [getCongruenceMatrix, foldl_bump_apply,
    length_filter_range seq.length (fun i => rowAt seq i = r ∧ i % p = c)]
  exact Nat.zero_add _

/-- The sum of column c over the four rows counts the positions of residue
class c. -/
lemma colSum_eq (seq : List Char) (p c : ℕ) :
    Finset.sum (Finset.range 4) (fun r => getCongruenceMatrix seq p r c)
      = ((Finset.range seq.length).filter (fun i => i % p = c)).card := by
  rw [Finset.card_eq_sum_card_fiberwise (f := fun i => rowAt seq i)
    (t := Finset.range 4)
    (fun x _ => Finset.mem_range.mpr (rowAt_lt_four seq x))]
  apply Finset.sum_congr rfl
  intro r _
  rw [getCongruenceMatrix_apply, Finset.filter_filter]
  congr 1
  apply Finset.filter_congr
  intro i _
  exact ⟨fun h => ⟨h.2, h.1⟩, fun h => ⟨h.2, h.1⟩⟩

/-- The cells of the congruence matrix sum to the sequence length. -/
lemma sum_cells (seq : List Char) (p : ℕ) (hp : 0 < p) :
    Finset.sum (Finset.range 4) (fun r =>
      Finset.sum (Finset.range p) (fun c => getCongruenceMatrix seq p r c))
      = seq.length := by
  rw [Finset.sum_comm]
  have h1 : Finset.sum (Finset.range p) (fun c =>
      Finset.sum (Finset.range 4) (fun r => getCongruenceMatrix seq p r c))
      = Finset.sum (Finset.range p) (fun c =>
        ((Finset.range seq.length).filter (fun i => i % p = c)).card) :=
    Finset.sum_congr rfl (fun c _ => colSum_eq seq p c)
  rw [h1, ← Finset.card_eq_sum_card_fiberwise (f := fun i => i % p)
    (t := Finset.range p)
    (fun x _ => Finset.mem_range.mpr (Nat.mod_lt x hp)), Finset.card_range]

/-- The number of naturals below n in residue class c modulo p. -/
lemma card_residue (p c : ℕ) (hp : 0 < p) (hcp : c < p) (n : ℕ) :
    ((Finset.range n).filter (fun i => i % p = c)).card
      = n / p + if c < n % p then 1 else 0 := by
  induction n with
  | zero => simp
  | succ m ih =>
    rw [Finset.range_succ, Finset.filter_insert]
    have hq : p * (m / p) + m % p = m := Nat.div_add_mod m p
    have hr : m % p < p := Nat.mod_lt m hp
    by_cases hc : m % p + 1 < p
    · obtain ⟨hdiv, hmod⟩ := (Nat.div_mod_unique hp (a := m + 1) (d := m / p)
        (c := m % p + 1)).mpr ⟨by omega, hc⟩
      by_cases h : m % p = c
      · rw [if_pos h, Finset.card_insert_of_not_mem (by simp), ih, hdiv, hmod]
        split_ifs <;> omega
      · rw [if_neg h, ih, hdiv, hmod]
        split_ifs <;> omega
    · have hpeq : m % p + 1 = p := by omega
      have h1 : (0 : ℕ) + p * (m / p + 1) = m + 1 := by
        rw [Nat.mul_succ]
        omega
      obtain ⟨hdiv, hmod⟩ := (Nat.div_mod_unique hp (a := m + 1) (d := m / p + 1)
        (c := 0)).mpr ⟨h1, hp⟩
      by_cases h : m % p = c
      · rw [if_pos h, Finset.card_insert_of_not_mem (by simp), ih, hdiv, hmod]
        split_ifs <;> omega
      · rw [if_neg h, ih, hdiv, hmod]
        split_ifs <;> omega

/-- Each residue class below p has either floor(n/p) or ceil(n/p) members,
where ceil(n/p) = (n + p - 1) / p. -/
lemma card_residue_floor_ceil (p c n : ℕ) (hp : 0 < p) (hcp : c < p) :
    ((Finset.range n).filter (fun i => i % p = c)).card = n / p ∨
    ((Finset.range n).filter (fun i => i % p = c)).card = (n + p - 1) / p := by
  rw [card_residue p c hp hcp n]
  have hq : n / p * p + n % p = n := Nat.div_add_mod' n p
  have hr : n % p < p := Nat.mod_lt n hp
  by_cases h : c < n % p
  · right
    rw [if_pos h]
    have hrpos : 0 < n % p := by omega
    have hsplit : n + p - 1 = (n % p - 1) + (n / p + 1) * p := by
      rw [Nat.add_mul, Nat.one_mul]
      omega
    rw [hsplit, Nat.add_mul_div_right _ _ hp,
      Nat.div_eq_of_lt (Nat.lt_of_le_of_lt (Nat.sub_le _ _) hr)]
    omega
  · left
    rw [if_neg h, Nat.add_zero]

/-- Expanding a sum of squared deviations: over the 4 x p grid, the sum of
(F i j - a)^2 equals the sum of squares minus 2*a times the total plus
4*p*a^2. -/
lemma sum_sq_dev (F : ℕ → ℕ → ℚ) (p : ℕ) (a S : ℚ)
    (hS : Finset.sum (Finset.range 4) (fun i => Finset.sum (Finset.range p) (fun j => F i j))
      = S) :
    Finset.sum (Finset.range 4) (fun i =>
      Finset.sum (Finset.range p) (fun j => (F i j - a) ^ 2))
      = Finset.sum (Finset.range 4) (fun i =>
          Finset.sum (Finset.range p) (fun j => F i j ^ 2))
        - 2 * a * S + 4 * (p : ℚ) * a ^ 2 := by
  have h1 : ∀ i j : ℕ, (F i j - a) ^ 2 = F i j ^ 2 - 2 * a * F i j + a ^ 2 := by
    intro i j
    ring
  simp only [h1, Finset.sum_add_distrib, Finset.sum_sub_distrib, ← Finset.mul_sum,
    Finset.sum_const, Finset.card_range, nsmul_eq_mul]
  rw [hS]
  push_cast
  ring

/-- C2: for every non-empty sequence and period p >= 1, getNDUSeq and its
closed form getNDUSeqEquation compute the same rational value. -/
theorem NDU_eq_NDUEquation (seq : List Char) (p : ℕ) (hseq : seq ≠ []) (hp : 1 ≤ p) :
    getNDUSeq seq p = getNDUSeqEquation seq p := by
  have hp0 : (p : ℚ) ≠ 0 := Nat.cast_ne_zero.mpr (by omega)
  have h4p : (4 : ℚ) * (p : ℚ) ≠ 0 := mul_ne_zero (by norm_num) hp0
  have hsum : Finset.sum (Finset.range 4) (fun i => Finset.sum (Finset.range p)
      (fun j => (getCongruenceMatrix seq p i j : ℚ))) = (seq.length : ℚ) := by
    exact_mod_cast congrArg (fun k : ℕ => (k : ℚ)) (sum_cells seq p (by omega))
  simp only [getNDUSeq, getNDUSeqEquation]
  rw [sum_sq_dev (fun i j => (getCongruenceMatrix seq p i j : ℚ)) p
    ((seq.length : ℚ) / (4 * (p : ℚ))) (seq.length : ℚ) hsum]
  congr 1
  field_simp
  ring

/-- Witness for NDU_eq_NDUEquation at the concrete sequence GT and period 2. -/
theorem NDU_eq_NDUEquation_witness :
    (['G', 'T'] : List Char) ≠ [] ∧ 1 ≤ 2 ∧
    getNDUSeq ['G', 'T'] 2 = getNDUSeqEquation ['G', 'T'] 2 :=
  ⟨by decide, by decide, NDU_eq_NDUEquation ['G', 'T'] 2 (by decide) (by decide)⟩

/-- C3: for every sequence and period p >= 1, the congruence matrix has
non-negative cells, its cells sum to the sequence length, and for each column
c < p the column sum counts the positions of residue class c, a count that is
either floor(len/p) or ceil(len/p) = (len + p - 1)/p. -/
theorem congruenceMatrix_invariants (seq : List Char) (p : ℕ) (hp : 1 ≤ p) :
    (∀ r c, 0 ≤ getCongruenceMatrix seq p r c) ∧
    Finset.sum (Finset.range 4) (fun r => Finset.sum (Finset.range p)
      (fun c => getCongruenceMatrix seq p r c)) = seq.length ∧
    ∀ c, c < p →
      Finset.sum (Finset.range 4) (fun r => getCongruenceMatrix seq p r c)
          = ((Finset.range seq.length).filter (fun i => i % p = c)).card ∧
        (Finset.sum (Finset.range 4) (fun r => getCongruenceMatrix seq p r c)
            = seq.length / p ∨
         Finset.sum (Finset.range 4) (fun r => getCongruenceMatrix seq p r c)
            = (seq.length + p - 1) / p) := by
  refine ⟨fun r c => Nat.zero_le _, sum_cells seq p (by omega), fun c hc =>
    ⟨colSum_eq seq p c, ?_⟩⟩
  rw [colSum_eq seq p c]
  exact card_residue_floor_ceil p c seq.length (by omega) hc

/-- Witness for congruenceMatrix_invariants at the sequence ACT and period 2. -/
theorem congruenceMatrix_invariants_witness :
    1 ≤ 2 ∧
    ((∀ r c, 0 ≤ getCongruenceMatrix ['A', 'C', 'T'] 2 r c) ∧
    Finset.sum (Finset.range 4) (fun r => Finset.sum (Finset.range 2)
      (fun c => getCongruenceMatrix ['A', 'C', 'T'] 2 r c))
        = (['A', 'C', 'T'] : List Char).length ∧
    ∀ c, c < 2 →
      Finset.sum (Finset.range 4) (fun r => getCongruenceMatrix ['A', 'C', 'T'] 2 r c)
          = ((Finset.range (['A', 'C', 'T'] : List Char).length).filter
              (fun i => i % 2 = c)).card ∧
        (Finset.sum (Finset.range 4) (fun r => getCongruenceMatrix ['A', 'C', 'T'] 2 r c)
            = (['A', 'C', 'T'] : List Char).length / 2 ∨
         Finset.sum (Finset.range 4) (fun r => getCongruenceMatrix ['A', 'C', 'T'] 2 r c)
            = ((['A', 'C', 'T'] : List Char).length + 2 - 1) / 2)) :=
  ⟨by decide, congruenceMatrix_invariants ['A', 'C', 'T'] 2 (by decide)⟩

/-! ### Perfect level: bounds and the exact-repeat characterization -/

/-- A sum over the four row indices, written out. -/
lemma sum_range_four (g : ℕ → ℕ) :
    Finset.sum (Finset.range 4) g = g 0 + g 1 + g 2 + g 3 := by
  rw [Finset.sum_range_succ, Finset.sum_range_succ, Finset.sum_range_succ,
    Finset.sum_range_succ, Finset.sum_range_zero, Nat.zero_add]

/-- Every cell of a column is at most the column maximum. -/
lemma le_colMax4 (CM : ℕ → ℕ → ℕ) (c r : ℕ) (hr : r < 4) : CM r c ≤ colMax4 CM c := by
  unfold colMax4
  interval_cases r
  · exact le_max_left _ _
  · exact le_trans (le_max_left _ _) (le_max_right _ _)
  · exact le_trans (le_trans (le_max_left _ _) (le_max_right _ _)) (le_max_right _ _)
  · exact le_trans (le_trans (le_max_right _ _) (le_max_right _ _)) (le_max_right _ _)

/-- The column maximum is at most the column sum. -/
lemma colMax4_le_colSum (CM : ℕ → ℕ → ℕ) (c : ℕ) :
    colMax4 CM c ≤ Finset.sum (Finset.range 4) (fun r => CM r c) := by
  rw [sum_range_four]
  unfold colMax4
  exact max_le (by omega) (max_le (by omega) (max_le (by omega) (by omega)))

/-- The column sum is at most four times the column maximum. -/
lemma colSum_le_four_colMax4 (CM : ℕ → ℕ → ℕ) (c : ℕ) :
    Finset.sum (Finset.range 4) (fun r => CM r c) ≤ 4 * colMax4 CM c := by
  have h0 := le_colMax4 CM c 0 (by omega)
  have h1 := le_colMax4 CM c 1 (by omega)
  have h2 := le_colMax4 CM c 2 (by omega)
  have h3 := le_colMax4 CM c 3 (by omega)
  rw [sum_range_four]
  omega

/-- The column maximum is attained by one of the four rows. -/
lemma colMax4_choice (CM : ℕ → ℕ → ℕ) (c : ℕ) :
    colMax4 CM c = CM 0 c ∨ colMax4 CM c = CM 1 c ∨
    colMax4 CM c = CM 2 c ∨ colMax4 CM c = CM 3 c := by
  unfold colMax4
  rcases max_choice (CM 0 c) (max (CM 1 c) (max (CM 2 c) (CM 3 c))) with h | h
  · exact Or.inl h
  rw [h]
  rcases max_choice (CM 1 c) (max (CM 2 c) (CM 3 c)) with h2 | h2
  · exact Or.inr (Or.inl h2)
  rw [h2]
  rcases max_choice (CM 2 c) (CM 3 c) with h3 | h3
  · exact Or.inr (Or.inr (Or.inl h3))
  · exact Or.inr (Or.inr (Or.inr h3))

/-- A position of residue class c makes its cell positive. -/
lemma cell_pos (seq : List Char) (p : ℕ) (i : ℕ) (hi : i < seq.length) :
    0 < getCongruenceMatrix seq p (rowAt seq i) (i % p) := by
  rw [getCongruenceMatrix_apply]
  exact Finset.card_pos.mpr ⟨i, by simp [Finset.mem_filter, Finset.mem_range, hi]⟩

/-- When the column maximum equals the column sum, all positions of that
residue class are classified into the same row. -/
lemma row_eq_of_colMax_eq_colSum (seq : List Char) (p c : ℕ)
    (h : colMax4 (getCongruenceMatrix seq p) c
      = Finset.sum (Finset.range 4) (fun r => getCongruenceMatrix seq p r c))
    (i : ℕ) (hi : i < seq.length) (hic : i % p = c)
    (j : ℕ) (hj : j < seq.length) (hjc : j % p = c) :
    rowAt seq i = rowAt seq j := by
  have hi1 := cell_pos seq p i hi
  have hj1 := cell_pos seq p j hj
  rw [hic] at hi1
  rw [hjc] at hj1
  have hri := rowAt_lt_four seq i
  have hrj := rowAt_lt_four seq j
  rw [sum_range_four] at h
  have hch := colMax4_choice (getCongruenceMatrix seq p) c
  set a := rowAt seq i with ha
  set b := rowAt seq j with hb
  interval_cases a <;> interval_cases b <;>
    rcases hch with hh | hh | hh | hh <;> omega

/-- When all positions of residue class c share one row, the column maximum
equals the column sum. -/
lemma colMax_eq_colSum_of_mono (seq : List Char) (p c : ℕ)
    (h : ∀ i, i < seq.length → i % p = c → ∀ j, j < seq.length → j % p = c →
      rowAt seq i = rowAt seq j) :
    colMax4 (getCongruenceMatrix seq p) c
      = Finset.sum (Finset.range 4) (fun r => getCongruenceMatrix seq p r c) := by
  by_cases hcls : ∃ i, i < seq.length ∧ i % p = c
  · obtain ⟨i0, hi0, hi0c⟩ := hcls
    have hfull : getCongruenceMatrix seq p (rowAt seq i0) c
        = Finset.sum (Finset.range 4) (fun r => getCongruenceMatrix seq p r c) := by
      rw [getCongruenceMatrix_apply, colSum_eq]
      congr 1
      ext x
      simp only [Finset.mem_filter, Finset.mem_range]
      constructor
      · exact fun hx => ⟨hx.1, hx.2.2⟩
      · exact fun hx => ⟨hx.1, h x hx.1 hx.2 i0 hi0 hi0c, hx.2⟩
    have hle := colMax4_le_colSum (getCongruenceMatrix seq p) c
    have hge := le_colMax4 (getCongruenceMatrix seq p) c (rowAt seq i0) (rowAt_lt_four seq i0)
    omega
  · push_neg at hcls
    have hz : ∀ r, getCongruenceMatrix seq p r c = 0 := by
      intro r
      rw [getCongruenceMatrix_apply, Finset.card_eq_zero]
      ext x
      simp only [Finset.mem_filter, Finset.mem_range, Finset.not_mem_empty, iff_false]
      intro hx
      exact hcls x hx.1 hx.2.2
    rw [sum_range_four]
    unfold colMax4
    simp [hz]

/-- C4: for every non-empty sequence and period p >= 1, the perfect level
lies in (0, 1], and equals 1 exactly when all positions of each residue class
are classified into the same symbol bucket. -/
theorem perfectLevel_in_unit_iff_mono (seq : List Char) (p : ℕ)
    (hseq : seq ≠ []) (hp : 1 ≤ p) :
    0 < getPerfectLevelSeq seq p ∧ getPerfectLevelSeq seq p ≤ 1 ∧
    (getPerfectLevelSeq seq p = 1 ↔
      ∀ i, i < seq.length → ∀ j, j < seq.length → i % p = j % p →
        rowAt seq i = rowAt seq j) := by
  have hn : 0 < seq.length := List.length_pos.mpr hseq
  have hnQ : (0 : ℚ) < (seq.length : ℚ) := by exact_mod_cast hn
  have hp' : 0 < p := by omega
  have htot : Finset.sum (Finset.range p) (fun c =>
      Finset.sum (Finset.range 4) (fun r => getCongruenceMatrix seq p r c))
      = seq.length := by
    rw [Finset.sum_comm]
    exact sum_cells seq p hp'
  have hMle : ∀ c ∈ Finset.range p,
      colMax4 (getCongruenceMatrix seq p) c
        ≤ Finset.sum (Finset.range 4) (fun r => getCongruenceMatrix seq p r c) :=
    fun c _ => colMax4_le_colSum (getCongruenceMatrix seq p) c
  have hsum_le : Finset.sum (Finset.range p) (fun c => colMax4 (getCongruenceMatrix seq p) c)
      ≤ seq.length := by
    calc Finset.sum (Finset.range p) (fun c => colMax4 (getCongruenceMatrix seq p) c)
        ≤ Finset.sum (Finset.range p) (fun c =>
            Finset.sum (Finset.range 4) (fun r => getCongruenceMatrix seq p r c)) :=
          Finset.sum_le_sum hMle
      _ = seq.length := htot
  have hsum_ge1 : 1 ≤ Finset.sum (Finset.range p)
      (fun c => colMax4 (getCongruenceMatrix seq p) c) := by
    have h4 : seq.length ≤ 4 * Finset.sum (Finset.range p)
        (fun c => colMax4 (getCongruenceMatrix seq p) c) := by
      calc seq.length
          = Finset.sum (Finset.range p) (fun c =>
              Finset.sum (Finset.range 4) (fun r => getCongruenceMatrix seq p r c)) :=
            htot.symm
        _ ≤ Finset.sum (Finset.range p) (fun c =>
              4 * colMax4 (getCongruenceMatrix seq p) c) :=
            Finset.sum_le_sum (fun c _ => colSum_le_four_colMax4 (getCongruenceMatrix seq p) c)
        _ = 4 * Finset.sum (Finset.range p) (fun c => colMax4 (getCongruenceMatrix seq p) c) :=
            (Finset.mul_sum _ _ _).symm
    omega
  simp only [getPerfectLevelSeq]
  refine ⟨?_, ?_, ?_⟩
  · exact div_pos (by exact_mod_cast hsum_ge1) hnQ
  · rw [div_le_one hnQ]
    exact_mod_cast hsum_le
  · rw [div_eq_one_iff_eq (ne_of_gt hnQ)]
    constructor
    · intro h i hi j hj hij
      have hN : Finset.sum (Finset.range p) (fun c => colMax4 (getCongruenceMatrix seq p) c)
          = seq.length := by exact_mod_cast h
      have hpw := (Finset.sum_eq_sum_iff_of_le hMle).mp (by rw [hN, htot])
      have hcmem : i % p ∈ Finset.range p := Finset.mem_range.mpr (Nat.mod_lt i hp')
      exact row_eq_of_colMax_eq_colSum seq p (i % p) (hpw (i % p) hcmem)
        i hi rfl j hj hij.symm
    · intro hmono
      have hpw : ∀ c ∈ Finset.range p,
          colMax4 (getCongruenceMatrix seq p) c
            = Finset.sum (Finset.range 4) (fun r => getCongruenceMatrix seq p r c) :=
        fun c _ => colMax_eq_colSum_of_mono seq p c
          (fun i hi hic j hj hjc => hmono i hi j hj (hic.trans hjc.symm))
      have heq : Finset.sum (Finset.range p) (fun c => colMax4 (getCongruenceMatrix seq p) c)
          = seq.length := by
        rw [Finset.sum_congr rfl hpw, htot]
      exact_mod_cast heq

/-- Witness for perfectLevel_in_unit_iff_mono at the sequence ACAC and
period 2. -/
theorem perfectLevel_in_unit_iff_mono_witness :
    (['A', 'C', 'A', 'C'] : List Char) ≠ [] ∧ 1 ≤ 2 ∧
    (0 < getPerfectLevelSeq ['A', 'C', 'A', 'C'] 2 ∧
     getPerfectLevelSeq ['A', 'C', 'A', 'C'] 2 ≤ 1 ∧
     (getPerfectLevelSeq ['A', 'C', 'A', 'C'] 2 = 1 ↔
       ∀ i, i < (['A', 'C', 'A', 'C'] : List Char).length →
         ∀ j, j < (['A', 'C', 'A', 'C'] : List Char).length → i % 2 = j % 2 →
           rowAt ['A', 'C', 'A', 'C'] i = rowAt ['A', 'C', 'A', 'C'] j)) :=
  ⟨by decide, by decide, perfectLevel_in_unit_iff_mono ['A', 'C', 'A', 'C'] 2
    (by decide) (by decide)⟩

/-! ### Evaluations exhibiting the search and top-n defects -/

/-- C1: getMaxPRSeq scores every scanned period with getPerfectLevelSeq(seq, mp)
— the loop variable is unused — so on the exact period-4 repeat ATCG x 5
(mp = 10) it returns period 2 with score 1/2, although the scanned range
contains period 4 whose perfect level is 1. -/
theorem getMaxPRSeq_ignores_loop_period :
    getMaxPRSeq seqATCGx5 = some (2, 1 / 2) ∧ getPerfectLevelSeq seqATCGx5 4 = 1 := by
  constructor
  · with_unfolding_all rfl
  · with_unfolding_all rfl

/-- C5: getPRRangeSeq iterates over range(p1, p2) and so omits the upper
period p2, returning one score fewer than one per period in [p1, p2], while
getNDURangeSeq iterates over range(p1, p2+1) and covers the full interval. -/
theorem getPRRangeSeq_omits_upper_bound :
    (getPRRangeSeq seqGGCCAATT 2 3).length = 1 ∧
    (getNDURangeSeq seqGGCCAATT 2 3).length = 2 := by
  constructor
  · with_unfolding_all rfl
  · with_unfolding_all rfl

/-- C6: getLargests hardcodes the slice pt[l-3:l] of the three largest values
whatever n is: with n = 2 it reports the third and second largest scores
(values 3 and 12 at indices 3 and 2), omitting the maximum 14 at index 4, and
with n = 4 it raises IndexError. -/
theorem getLargests_hardcodes_three :
    getLargests [0, 2, 12, 3, 14] 2 = some ([3, 12, 14], [3, 2]) ∧
    getLargests [0, 2, 12, 3, 14] 4 = none := by
  constructor
  · with_unfolding_all rfl
  · with_unfolding_all rfl

/-! ### Shape of the automatic period scan -/

/-- Indexing a mapped arithmetic range. -/
lemma getD_map_range' {α : Type} (g : ℕ → α) (d : α) (s m k : ℕ) (h : k < m) :
    ((List.range' s m).map g).getD k d = g (s + k) := by
  induction m generalizing s k with
  | zero => omega
  | succ t ih =>
    rw [List.range'_succ, List.map_cons]
    cases k with
    | zero => simp
    | succ k' =>
      rw [List.getD_cons_succ, ih (s + 1) k' (by omega)]
      congr 1
      omega

/-- C7 counterexample: on a length-8 sequence the default limit is
min(8/2, 100) = 4, but the returned list has only 3 entries (placeholder plus
periods 2 and 3) — period 4 itself is never scanned, so the list cannot hold
one entry per periodicity 1..4. -/
theorem getNDUAllSeq_auto_stops_before_limit :
    (getNDUAllSeq seqGGCCAATT none).length = 3 ∧
    min (seqGGCCAATT.length / 2) 100 = 4 := by
  constructor
  · with_unfolding_all rfl
  · with_unfolding_all rfl

/-- C7 (amended): with no period limit, getNDUAllSeq prepends 0 for
periodicity 1 and scans periods 2 through min(floor(n/2), 100) - 1, the bound
excluded, so entry k holds the NDU of periodicity k+1 for 1 <= k < length and
the length is max 1 (min(floor(n/2), 100) - 1); getMaxNDUSeq runs exactly the
same scan and reports the first index of the maximal value, shifted by 1, with
that value. -/
theorem getNDUAllSeq_auto_shape (seq : List Char) (hseq : seq ≠ []) :
    (getNDUAllSeq seq none).getD 0 0 = 0 ∧
    (getNDUAllSeq seq none).length = max 1 (min (seq.length / 2) 100 - 1) ∧
    (∀ k, 1 ≤ k → k < (getNDUAllSeq seq none).length →
      (getNDUAllSeq seq none).getD k 0 = getNDUSeq seq (k + 1)) ∧
    getMaxNDUSeq seq none
      = (pyIndex (getNDUAllSeq seq none)
            (((getNDUAllSeq seq none).drop 1).foldl max 0) + 1,
         ((getNDUAllSeq seq none).drop 1).foldl max 0) := by
  refine ⟨rfl, ?_, ?_, rfl⟩
  · simp only [getNDUAllSeq, pyRange, List.length_cons, List.length_map, List.length_range']
    omega
  · intro k hk1 hk2
    have hk3 : k - 1 < min (seq.length / 2) 100 - 2 := by
      simp only [getNDUAllSeq, pyRange, List.length_cons, List.length_map,
        List.length_range'] at hk2
      omega
    simp only [getNDUAllSeq, pyRange]
    cases k with
    | zero => omega
    | succ k' =>
      rw [List.getD_cons_succ,
        getD_map_range' (fun q => getNDUSeq seq q) 0 2 _ k' (by omega)]
      congr 1
      omega

/-- Witness for getNDUAllSeq_auto_shape at the sequence GGCCAATT. -/
theorem getNDUAllSeq_auto_shape_witness :
    seqGGCCAATT ≠ [] ∧
    ((getNDUAllSeq seqGGCCAATT none).getD 0 0 = 0 ∧
     (getNDUAllSeq seqGGCCAATT none).length
        = max 1 (min (seqGGCCAATT.length / 2) 100 - 1) ∧
     (∀ k, 1 ≤ k → k < (getNDUAllSeq seqGGCCAATT none).length →
       (getNDUAllSeq seqGGCCAATT none).getD k 0 = getNDUSeq seqGGCCAATT (k + 1)) ∧
     getMaxNDUSeq seqGGCCAATT none
       = (pyIndex (getNDUAllSeq seqGGCCAATT none)
             (((getNDUAllSeq seqGGCCAATT none).drop 1).foldl max 0) + 1,
          ((getNDUAllSeq seqGGCCAATT none).drop 1).foldl max 0)) :=
  ⟨by decide, getNDUAllSeq_auto_shape seqGGCCAATT (by decide)⟩

/-! ### Failure conditions of the scorers -/

/-- getNDUSeq's exception-aware embedding fails exactly on a zero period or an
empty sequence. -/
lemma getNDUSeqE_none_iff (seq : List Char) (p : ℕ) :
    getNDUSeqE seq p = none ↔ p = 0 ∨ seq = [] := by
  by_cases hp : p = 0
  · subst hp
    by_cases hs : seq = []
    · subst hs
      simp [getNDUSeqE, getCongruenceMatrixE, pyDiv]
    · simp [getNDUSeqE, getCongruenceMatrixE, pyDiv, hs, List.length_eq_zero]
  · have h4p : (4 : ℚ) * (p : ℚ) ≠ 0 := mul_ne_zero (by norm_num) (Nat.cast_ne_zero.mpr hp)
    by_cases hs : seq = []
    · subst hs
      simp [getNDUSeqE, getCongruenceMatrixE, pyDiv, hp, h4p]
    · have hlen : (seq.length : ℚ) ≠ 0 :=
        Nat.cast_ne_zero.mpr (fun h => hs (List.length_eq_zero.mp h))
      simp [getNDUSeqE, getCongruenceMatrixE, pyDiv, hp, hs, h4p, hlen, List.length_eq_zero]

/-- getPerfectLevelSeq's exception-aware embedding fails exactly on a zero
period or an empty sequence. -/
lemma getPerfectLevelSeqE_none_iff (seq : List Char) (p : ℕ) :
    getPerfectLevelSeqE seq p = none ↔ p = 0 ∨ seq = [] := by
  by_cases hs : seq = []
  · subst hs
    simp [getPerfectLevelSeqE, getCongruenceMatrixE, pyDiv]
  · have hlen : (seq.length : ℚ) ≠ 0 :=
      Nat.cast_ne_zero.mpr (fun h => hs (List.length_eq_zero.mp h))
    by_cases hp : p = 0
    · subst hp
      simp [getPerfectLevelSeqE, getCongruenceMatrixE, pyDiv, hs, List.length_eq_zero]
    · simp [getPerfectLevelSeqE, getCongruenceMatrixE, pyDiv, hs, hp, hlen,
        List.length_eq_zero]

/-- C8 counterexample: a period larger than the sequence length is accepted —
both scorers return a value computed from the zero-padded degenerate matrix
instead of failing. -/
theorem scorers_accept_overlong_period :
    (['A', 'C', 'G', 'T'] : List Char).length < 10 ∧
    getNDUSeqE ['A', 'C', 'G', 'T'] 10 = some (9 / 10) ∧
    getPerfectLevelSeqE ['A', 'C', 'G', 'T'] 10 = some 1 := by
  refine ⟨by decide, ?_, ?_⟩
  · with_unfolding_all rfl
  · with_unfolding_all rfl

/-- C8 (amended): the scorers fail (Python ZeroDivisionError) precisely when
the period is 0 or the sequence is empty; any period >= 1 — including periods
beyond the sequence length — yields a score on a non-empty sequence. -/
theorem scorers_fail_iff_degenerate (seq : List Char) (p : ℕ) :
    (getNDUSeqE seq p = none ↔ p = 0 ∨ seq = []) ∧
    (getPerfectLevelSeqE seq p = none ↔ p = 0 ∨ seq = []) :=
  ⟨getNDUSeqE_none_iff seq p, getPerfectLevelSeqE_none_iff seq p⟩

/-! ### Sliding-window spectrum -/

/-- mapM over Option succeeds with a same-length list when every element
succeeds. -/
lemma mapM_option_length {α β : Type} (f : α → Option β) (l : List α)
    (h : ∀ a ∈ l, ∃ y, f a = some y) :
    ∃ res, l.mapM f = some res ∧ res.length = l.length := by
  induction l with
  | nil => exact ⟨[], rfl, rfl⟩
  | cons a t ih =>
    obtain ⟨y, hy⟩ := h a (List.mem_cons_self a t)
    obtain ⟨res, hres, hlen⟩ := ih (fun x hx => h x (List.mem_cons_of_mem a hx))
    refine ⟨y :: res, ?_, by simp [hlen]⟩
    rw [List.mapM_cons, hy, hres]
    rfl

/-- A valid scoring call returns a value. -/
lemma getNDUSeqE_isSome (w : List Char) (p : ℕ) (hp : p ≠ 0) (hw : w ≠ []) :
    ∃ y, getNDUSeqE w p = some y := by
  rw [← Option.ne_none_iff_exists']
  intro hnone
  rcases (getNDUSeqE_none_iff w p).mp hnone with h | h
  · exact hp h
  · exact hw h

/-- C10 counterexample: an explicit window size of 0 on a non-empty sequence
makes every slice empty, so the first window's NDU computation raises instead
of returning the claimed list of max(0, n - W + 1) = 2 scores. -/
theorem getNDUWindowSeq_zero_window_raises :
    getNDUWindowSeq ['A'] 1 (some 0) = none := by
  with_unfolding_all rfl

/-- C10 (amended): for a period >= 1 and a window size W >= 1 (in particular
the default W = 5p), getNDUWindowSeq never raises: it returns exactly
n - W + 1 scores when W <= n and the empty list when W > n. -/
theorem getNDUWindowSeq_length (seq : List Char) (p W : ℕ) (hp : 1 ≤ p) (hW : 1 ≤ W) :
    (∃ l, getNDUWindowSeq seq p (some W) = some l ∧
      l.length = if W ≤ seq.length then seq.length - W + 1 else 0) ∧
    getNDUWindowSeq seq p none = getNDUWindowSeq seq p (some (5 * p)) := by
  constructor
  · by_cases hWn : W ≤ seq.length
    · have he : ((seq.length : ℤ) - (W : ℤ) + 1).toNat = seq.length - W + 1 := by omega
      simp only [getNDUWindowSeq, he]
      have hall : ∀ i ∈ List.range (seq.length - W + 1),
          ∃ y, getNDUSeqE ((seq.drop i).take W) p = some y := by
        intro i hi
        have hi' : i < seq.length - W + 1 := List.mem_range.mp hi
        have hpos : 0 < ((seq.drop i).take W).length := by
          rw [List.length_take, List.length_drop]
          exact lt_min (by omega) (by omega)
        exact getNDUSeqE_isSome _ _ (by omega) (List.length_pos.mp hpos)
      obtain ⟨res, hres, hlen⟩ := mapM_option_length
        (fun i => getNDUSeqE ((seq.drop i).take W) p)
        (List.range (seq.length - W + 1)) hall
      exact ⟨res, hres, by rw [hlen, List.length_range, if_pos hWn]⟩
    · have he : ((seq.length : ℤ) - (W : ℤ) + 1).toNat = 0 := by omega
      simp only [getNDUWindowSeq, he]
      exact ⟨[], rfl, by simp [hWn]⟩
  · rfl

/-- Witness for getNDUWindowSeq_length at the sequence ACGT, period 1 and
window 2. -/
theorem getNDUWindowSeq_length_witness :
    1 ≤ 1 ∧ 1 ≤ 2 ∧
    ((∃ l, getNDUWindowSeq ['A', 'C', 'G', 'T'] 1 (some 2) = some l ∧
       l.length = if 2 ≤ (['A', 'C', 'G', 'T'] : List Char).length
         then (['A', 'C', 'G', 'T'] : List Char).length - 2 + 1 else 0) ∧
     getNDUWindowSeq ['A', 'C', 'G', 'T'] 1 none
       = getNDUWindowSeq ['A', 'C', 'G', 'T'] 1 (some (5 * 1))) :=
  ⟨by decide, by decide,
    getNDUWindowSeq_length ['A', 'C', 'G', 'T'] 1 2 (by decide) (by decide)⟩

/-! ### Consensus repeat extraction -/

/-- Indexing a mapped List.range. -/
lemma getD_map_range {α : Type} (g : ℕ → α) (d : α) (p k : ℕ) (h : k < p) :
    ((List.range p).map g).getD k d = g k := by
  rw [List.range_eq_range', getD_map_range' g d 0 p k h, Nat.zero_add]

/-- argmax4 returns the first row attaining the column maximum. -/
lemma argmax4_isFirstArgmax4 (col : ℕ → ℕ) : isFirstArgmax4 col (argmax4 col) := by
  have hb0 : col 0 ≤ max (col 0) (max (col 1) (max (col 2) (col 3))) := le_max_left _ _
  have hb1 : col 1 ≤ max (col 0) (max (col 1) (max (col 2) (col 3))) :=
    le_trans (le_max_left _ _) (le_max_right _ _)
  have hb2 : col 2 ≤ max (col 0) (max (col 1) (max (col 2) (col 3))) :=
    le_trans (le_trans (le_max_left _ _) (le_max_right _ _)) (le_max_right _ _)
  have hb3 : col 3 ≤ max (col 0) (max (col 1) (max (col 2) (col 3))) :=
    le_trans (le_trans (le_max_right _ _) (le_max_right _ _)) (le_max_right _ _)
  have hch := colMax4_choice (fun r _ : ℕ => col r) 0
  simp only [colMax4] at hch
  unfold argmax4 isFirstArgmax4
  dsimp only
  set m := max (col 0) (max (col 1) (max (col 2) (col 3))) with hm
  split_ifs with h0 h1 h2
  · exact ⟨by omega, fun s hs => by interval_cases s <;> omega, fun s hs => by omega⟩
  · exact ⟨by omega, fun s hs => by interval_cases s <;> omega,
      fun s hs => by interval_cases s <;> omega⟩
  · exact ⟨by omega, fun s hs => by interval_cases s <;> omega,
      fun s hs => by interval_cases s <;> omega⟩
  · rcases hch with hh | hh | hh | hh
    · exact absurd hh.symm h0
    · exact absurd hh.symm h1
    · exact absurd hh.symm h2
    · exact ⟨by omega, fun s hs => by interval_cases s <;> omega,
        fun s hs => by interval_cases s <;> omega⟩

/-- C9: getRepeatSeq builds a length-p string whose column-c symbol decodes
the first row attaining the maximal count of column c (row priority
G > C > A > other), and on the exact repeat ATCG x 5 with period 4 it returns
ATCG while the perfect level there is 1. -/
theorem getRepeatSeq_majority_consensus (seq : List Char) (p : ℕ)
    (hseq : seq ≠ []) (hp : 1 ≤ p) :
    (getRepeatSeq seq p).length = p ∧
    (∀ c, c < p → ∃ r, isFirstArgmax4 (fun s => getCongruenceMatrix seq p s c) r ∧
      (getRepeatSeq seq p).getD c 'X'
        = (if r = 0 then 'G' else if r = 1 then 'C' else if r = 2 then 'A' else 'T')) ∧
    getRepeatSeq seqATCGx5 4 = ['A', 'T', 'C', 'G'] ∧
    getPerfectLevelSeq seqATCGx5 4 = 1 := by
  refine ⟨?_, ?_, ?_, ?_⟩
  · simp [getRepeatSeq]
  · intro c hc
    refine ⟨argmax4 (fun s => getCongruenceMatrix seq p s c),
      argmax4_isFirstArgmax4 _, ?_⟩
    simp only [getRepeatSeq]
    rw [getD_map_range _ 'X' p c hc]
  · with_unfolding_all rfl
  · with_unfolding_all rfl

/-- Witness for getRepeatSeq_majority_consensus at the sequence A and
period 1. -/
theorem getRepeatSeq_majority_consensus_witness :
    (['A'] : List Char) ≠ [] ∧ 1 ≤ 1 ∧
    ((getRepeatSeq ['A'] 1).length = 1 ∧
     (∀ c, c < 1 → ∃ r, isFirstArgmax4 (fun s => getCongruenceMatrix ['A'] 1 s c) r ∧
       (getRepeatSeq ['A'] 1).getD c 'X'
         = (if r = 0 then 'G' else if r = 1 then 'C' else if r = 2 then 'A' else 'T')) ∧
     getRepeatSeq seqATCGx5 4 = ['A', 'T', 'C', 'G'] ∧
     getPerfectLevelSeq seqATCGx5 4 = 1) :=
  ⟨by decide, by decide, getRepeatSeq_majority_consensus ['A'] 1 (by decide) (by decide)⟩

end DNANDU
